import Mathlib

/-!
Verification of the dbibackend protocol core (`dbi.py`): the 16-byte
"DBI0" header codec, the dispatcher loop, the LIST catalog build, and
the FILE_RANGE chunked streaming handler.  Machine integers are modelled
as `Nat` with explicit bounds; byte strings as `List Nat` (each < 256);
Python strings as `List Char`.
-/

namespace Dbi

/-- `BUFFER_SEGMENT_DATA_SIZE = 0x100000` (1 MiB), the chunk cap. -/
def BUFFER_SEGMENT_DATA_SIZE : Nat := 0x100000

/-- The 4 magic bytes `b'DBI0'`. -/
def dbiMagic : List Nat := [0x44, 0x42, 0x49, 0x30]

/-- Little-endian packing of an unsigned 32-bit value (`struct.pack '<I'`). -/
def le32 (n : Nat) : List Nat :=
  [n % 256, n / 256 % 256, n / 65536 % 256, n / 16777216 % 256]

/-- Little-endian packing of an unsigned 64-bit value (`struct.pack '<Q'`). -/
def le64 (n : Nat) : List Nat :=
  [n % 256, n / 256 % 256, n / 65536 % 256, n / 16777216 % 256,
   n / 4294967296 % 256, n / 1099511627776 % 256,
   n / 281474976710656 % 256, n / 72057594037927936 % 256]

/-- Little-endian unpacking of a byte list (`struct.unpack '<I'`/`'<Q'`). -/
def unpackLE (bs : List Nat) : Nat :=
  bs.foldr (fun b acc => b + 256 * acc) 0

/-- `struct.pack('<4sIII', b'DBI0', t, i, s)` ignoring the range check:
the raw 16 bytes. -/
def packHeaderUnchecked (t i s : Nat) : List Nat :=
  dbiMagic ++ le32 t ++ le32 i ++ le32 s

/-- `struct.pack('<4sIII', b'DBI0', t, i, s)`: `struct.error` (modelled as
`none`) when a field does not fit in 32 bits, else the 16 bytes. -/
def packHeader (t i s : Nat) : Option (List Nat) :=
  if t < 2 ^ 32 ∧ i < 2 ^ 32 ∧ s < 2 ^ 32 then
    some (packHeaderUnchecked t i s)
  else none

/-- Header decoding as performed by `poll_commands` (lines 149-155):
check `startswith(b'DBI0')`, then unpack the three little-endian u32
fields from byte ranges 4:8, 8:12, 12:16. -/
def decodeHeader (bs : List Nat) : Option (Nat × Nat × Nat) :=
  if bs.take 4 = dbiMagic then
    some (unpackLE ((bs.drop 4).take 4),
          unpackLE ((bs.drop 8).take 4),
          unpackLE ((bs.drop 12).take 4))
  else none

/-! ## Dispatcher (`poll_commands`, lines 144-167) -/

/-- Which handler one loop iteration of `poll_commands` invokes, given a
16-byte header read from the transport. -/
inductive HandlerCall where
  | skip                       -- non-magic header: `continue`
  | exitCall                   -- `process_exit_command`
  | listCall                   -- `process_list_command`
  | fileRangeCall (dataSize : Nat)  -- `process_file_range_command`
  deriving DecidableEq, Repr

/-- `CommandID.EXIT = 0`, `LIST_DEPRECATED = 1`, `FILE_RANGE = 2`, `LIST = 3`;
`CommandType.REQUEST = 0`, `RESPONSE = 1`, `ACK = 2`. -/
def CommandID_EXIT : Nat := 0
def CommandID_FILE_RANGE : Nat := 2
def CommandID_LIST : Nat := 3
def CommandType_RESPONSE : Nat := 1
def CommandType_ACK : Nat := 2

/-- One dispatch decision of `poll_commands` (lines 149-167): decode the
header; on decode failure skip, else route on the command id.  The second
component records whether the unknown-id warning is logged. -/
def dispatchStep (header : List Nat) : HandlerCall × Bool :=
  match decodeHeader header with
  | none => (.skip, false)
  | some (_, i, s) =>
    if i = CommandID_EXIT then (.exitCall, false)
    else if i = CommandID_LIST then (.listCall, false)
    else if i = CommandID_FILE_RANGE then (.fileRangeCall s, false)
    else (.exitCall, true)

/-- `process_exit_command` (lines 108-111): the bytes it writes and the
fact that it terminates the process (`sys.exit(0)`). -/
def process_exit_command : List Nat × Bool :=
  (packHeaderUnchecked CommandType_RESPONSE CommandID_EXIT 0, true)

/-- The AWAIT_HEADER portion of the loop: read 16 bytes; on a non-magic
header discard them and re-read (lines 148-151).  Returns the number of
discarded 16-byte frames, the decoded header, and the unconsumed rest of
the stream; `none` when the stream has no further valid header within
`fuel` reads. -/
def awaitHeader (fuel : Nat) (input : List Nat) :
    Option (Nat × (Nat × Nat × Nat) × List Nat) :=
  match fuel with
  | 0 => none
  | fuel + 1 =>
    if input.length < 16 then none
    else
      match decodeHeader (input.take 16) with
      | some h => some (0, h, input.drop 16)
      | none => (awaitHeader fuel (input.drop 16)).map
          (fun r => (r.1 + 1, r.2))

/-! ## LIST handler: catalog build (`process_list_command`, lines 114-141) -/

/-- `filename.lower().endswith('.nsp') or filename.lower().endswith('nsz')
or filename.lower().endswith('.xci')` (line 121).  Note the `nsz` test has
no leading dot in the source. -/
def matchesExt (filename : List Char) : Bool :=
  let l := filename.map Char.toLower
  List.isSuffixOf ['.', 'n', 's', 'p'] l
    || List.isSuffixOf ['n', 's', 'z'] l
    || List.isSuffixOf ['.', 'x', 'c', 'i'] l

/-- The extension test as the spec words it: lowercased name ends in one
of `.nsp`, `.nsz`, `.xci` (dot required for each).  Used only to compare
the source behaviour against the spec sentence. -/
def specExtMatches (filename : List Char) : Bool :=
  let l := filename.map Char.toLower
  List.isSuffixOf ['.', 'n', 's', 'p'] l
    || List.isSuffixOf ['.', 'n', 's', 'z'] l
    || List.isSuffixOf ['.', 'x', 'c', 'i'] l

/-- `str(Path(dirName).joinpath(filename))`. -/
def pathJoin (dir filename : List Char) : List Char :=
  dir ++ '/' :: filename

/-- The ordered name-to-path mapping (`OrderedDict`), as an association
list whose order is key insertion order. -/
abbrev Catalog := List (List Char × List Char)

/-- `OrderedDict.__setitem__`: an existing key keeps its position and gets
the new value; a new key is appended. -/
def odInsert (m : Catalog) (k v : List Char) : Catalog :=
  if m.any (fun p => p.1 = k) then
    m.map (fun p => if p.1 = k then (k, v) else p)
  else m ++ [(k, v)]

/-- `nsp_name in cache` / `cache[nsp_name]` combined: dict lookup. -/
def odLookup (m : Catalog) (k : List Char) : Option (List Char) :=
  match m with
  | [] => none
  | (k', v) :: m => if k = k' then some v else odLookup m k

/-- The walk of the root directory, as `os.walk` yields it: a list of
`(dirName, fileList)` pairs in discovery order. -/
abbrev Walk := List (List Char × List (List Char))

/-- The catalog build of `process_list_command` (lines 117-123): walk the
tree and insert every file passing the extension test, keyed by its base
name, valued by the joined path. -/
def buildCatalog (walk : Walk) : Catalog :=
  walk.foldl
    (fun acc e =>
      e.2.foldl
        (fun acc f =>
          if matchesExt f then odInsert acc f (pathJoin e.1 f) else acc)
        acc)
    []

/-- The `(dirName, filename)` pairs of the walk, flattened in discovery
order. -/
def flattenWalk (walk : Walk) : List (List Char × List Char) :=
  (walk.map (fun e => e.2.map (fun f => (e.1, f)))).flatten

/-- The flattened walk restricted to the files the extension test admits. -/
def walkEntries (walk : Walk) : List (List Char × List Char) :=
  (flattenWalk walk).filter (fun e => matchesExt e.2)

/-- Folding `odInsert` over walk entries starting from a given catalog:
the normal form the nested walk fold of `buildCatalog` reduces to. -/
def odBuildFrom (acc : Catalog) (l : List (List Char × List Char)) : Catalog :=
  l.foldl (fun m e => odInsert m e.2 (pathJoin e.1 e.2)) acc

/-- First-occurrence deduplication: the key order an `OrderedDict` ends up
with after inserting a key sequence. -/
def dedupAux (seen : List (List Char)) : List (List Char) → List (List Char)
  | [] => []
  | k :: ks => if k ∈ seen then dedupAux seen ks else k :: dedupAux (k :: seen) ks

def dedupKeys (ks : List (List Char)) : List (List Char) :=
  dedupAux [] ks

/-! ## LIST handler: serialization (lines 125-140) -/

/-- UTF-8 encoding of one character (`str.encode('utf-8')`, per char). -/
def utf8EncodeCharNat (c : Char) : List Nat :=
  let n := c.toNat
  if n < 128 then [n]
  else if n < 2048 then [192 + n / 64, 128 + n % 64]
  else if n < 65536 then [224 + n / 4096, 128 + n / 64 % 64, 128 + n % 64]
  else [240 + n / 262144, 128 + n / 4096 % 64, 128 + n / 64 % 64, 128 + n % 64]

/-- `s.encode('utf-8')`. -/
def utf8Encode (s : List Char) : List Nat :=
  (s.map utf8EncodeCharNat).flatten

/-- Lines 125-127: `nsp_path_list += f'{rom}\n'` over the catalog keys. -/
def joinNames (names : List (List Char)) : List Char :=
  names.foldl (fun acc n => acc ++ n ++ ['\n']) []

/-- Lines 128-131 and 140: the RESPONSE header and the payload that
`process_list_command` writes (header first, payload after the ACK read).
`struct.pack` fails (`none`) if the payload length exceeds 32 bits. -/
def listResponseWire (catalog : Catalog) : Option (List Nat × List Nat) :=
  let payload := utf8Encode (joinNames (catalog.map Prod.fst))
  (packHeader CommandType_RESPONSE CommandID_LIST payload.length).map
    (fun h => (h, payload))

/-! ## FILE_RANGE handler (`process_file_range_command`, lines 65-105) -/

/-- Lines 69-72: parse the request payload.  `range_size` is the LE u32 at
bytes 0:4, `range_offset` the LE u64 at 4:12, `nsp_name_len` the LE u32 at
12:16, and the name is decoded from the whole remainder `[16:]` (the
declared length field is not used to bound it).  The name is kept as its
UTF-8 bytes. -/
def parseFileRangePayload (payload : List Nat) : Nat × Nat × Nat × List Nat :=
  (unpackLE (payload.take 4),
   unpackLE ((payload.drop 4).take 8),
   unpackLE ((payload.drop 12).take 4),
   payload.drop 16)

/-- Lines 73-75: resolve the requested name against the cache built by the
last LIST command: only a non-`None`, non-empty cache containing the name
as a key replaces it with the mapped path. -/
def resolveName (cache : Option Catalog) (name : List Char) : List Char :=
  match cache with
  | none => name
  | some c =>
    if 0 < c.length then
      match odLookup c name with
      | some p => p
      | none => name
    else name

/-- Lines 67 and 79: the ACK and RESPONSE headers the handler writes. -/
def fileRangeAckHeader (dataSize : Nat) : Option (List Nat) :=
  packHeader CommandType_ACK CommandID_FILE_RANGE dataSize

def fileRangeResponseHeader (rangeSize : Nat) : Option (List Nat) :=
  packHeader CommandType_RESPONSE CommandID_FILE_RANGE rangeSize

/-- Line 131: the LIST RESPONSE header. -/
def listResponseHeader (payloadLen : Nat) : Option (List Nat) :=
  packHeader CommandType_RESPONSE CommandID_LIST payloadLen

/-- The streaming loop (lines 89-105) over a file of total length `L`.
`pos` is the file position after `f.seek(range_offset)`, `remaining` the
`remaining_size` counter.  `f.read(n)` at position `pos` returns
`min n (L - pos)` bytes and advances the position by the bytes actually
read.  Returns the list of written chunk sizes and whether the
unexpected-EOF warning was logged.  `fuel` bounds the iterations; any
`fuel ≥ remaining` is enough since each iteration consumes at least one
unit of `remaining`. -/
def streamLoop (L : Nat) (fuel pos remaining : Nat) : List Nat × Bool :=
  match fuel with
  | 0 => ([], false)
  | fuel + 1 =>
    if remaining = 0 then ([], false)
    else
      let chunk := min BUFFER_SEGMENT_DATA_SIZE remaining
      let bytesRead := min chunk (L - pos)
      if bytesRead = 0 then ([], true)
      else
        let r := streamLoop L fuel (pos + bytesRead) (remaining - chunk)
        (bytesRead :: r.1, r.2)

/-- The whole streaming phase for a request of `rangeSize` bytes from
`rangeOffset` in a file of length `fileLen`: written chunk sizes and the
warning flag. -/
def streamFileRange (fileLen rangeOffset rangeSize : Nat) : List Nat × Bool :=
  streamLoop fileLen rangeSize rangeOffset rangeSize

/-! ## Codec lemmas -/

theorem unpackLE_le32 (n : Nat) (h : n < 2 ^ 32) : unpackLE (le32 n) = n := by
  simp only [unpackLE, le32, List.foldr]
  omega

theorem unpackLE_le64 (n : Nat) (h : n < 2 ^ 64) : unpackLE (le64 n) = n := by
  simp only [unpackLE, le64, List.foldr]
  omega

theorem le32_length (n : Nat) : (le32 n).length = 4 := by simp [le32]

theorem le64_length (n : Nat) : (le64 n).length = 8 := by simp [le64]

theorem le32_unpackLE (bs : List Nat) (hl : bs.length = 4)
    (hb : ∀ b ∈ bs, b < 256) : le32 (unpackLE bs) = bs := by
  match bs, hl with
  | [a, b, c, d], _ =>
    simp only [List.mem_cons, List.not_mem_nil, or_false, forall_eq_or_imp,
      forall_eq] at hb
    simp only [le32, unpackLE, List.foldr, List.cons.injEq, and_true]
    omega

theorem le64_unpackLE (bs : List Nat) (hl : bs.length = 8)
    (hb : ∀ b ∈ bs, b < 256) : le64 (unpackLE bs) = bs := by
  match bs, hl with
  | [b0, b1, b2, b3, b4, b5, b6, b7], _ =>
    simp only [List.mem_cons, List.not_mem_nil, or_false, forall_eq_or_imp,
      forall_eq] at hb
    simp only [le64, unpackLE, List.foldr, List.cons.injEq, and_true]
    omega

theorem unpackLE_lt (bs : List Nat) (hb : ∀ b ∈ bs, b < 256) :
    unpackLE bs < 256 ^ bs.length := by
  induction bs with
  | nil => simp [unpackLE]
  | cons a l ih =>
    simp only [List.mem_cons, forall_eq_or_imp] at hb
    have h := ih hb.2
    simp only [unpackLE, List.foldr] at h ⊢
    have : (256 : Nat) ^ (a :: l).length = 256 * 256 ^ l.length := by
      simp [pow_succ]; ring
    rw [this]
    omega

theorem packHeaderUnchecked_length (t i s : Nat) :
    (packHeaderUnchecked t i s).length = 16 := by
  simp [packHeaderUnchecked, dbiMagic, le32]

theorem packHeaderUnchecked_magic (t i s : Nat) :
    (packHeaderUnchecked t i s).take 4 = dbiMagic := by
  simp [packHeaderUnchecked, dbiMagic, le32]

theorem decodeHeader_packHeaderUnchecked (t i s : Nat)
    (ht : t < 2 ^ 32) (hi : i < 2 ^ 32) (hs : s < 2 ^ 32) :
    decodeHeader (packHeaderUnchecked t i s) = some (t, i, s) := by
  have h1 := unpackLE_le32 t ht
  have h2 := unpackLE_le32 i hi
  have h3 := unpackLE_le32 s hs
  simp only [le32] at h1 h2 h3
  simp only [decodeHeader, packHeaderUnchecked, dbiMagic, le32]
  simp only [List.cons_append, List.nil_append, List.take, List.drop,
    if_pos rfl]
  rw [h1, h2, h3]
  simp

theorem packHeader_spec (t i s : Nat) (bs : List Nat)
    (h : packHeader t i s = some bs) :
    bs.length = 16 ∧ bs.take 4 = dbiMagic := by
  simp only [packHeader] at h
  split at h
  · cases h
    exact ⟨packHeaderUnchecked_length t i s, packHeaderUnchecked_magic t i s⟩
  · cases h

/-! ## Claim theorems -/

/-- C3: Header framing round-trips: for every command type `t`, command id
`i`, and size `s` each in unsigned 32-bit range, decoding the 16-byte
little-endian header encoded from `(t, i, s)` with magic `"DBI0"` yields
exactly `(t, i, s)`. -/
theorem c3_header_roundtrip (t i s : Nat)
    (ht : t < 2 ^ 32) (hi : i < 2 ^ 32) (hs : s < 2 ^ 32) :
    ∃ bs, packHeader t i s = some bs ∧
      bs.length = 16 ∧ decodeHeader bs = some (t, i, s) := by
  refine ⟨packHeaderUnchecked t i s, ?_, packHeaderUnchecked_length t i s,
    decodeHeader_packHeaderUnchecked t i s ht hi hs⟩
  simp only [packHeader]
  rw [if_pos ⟨ht, hi, hs⟩]

theorem c3_header_roundtrip_witness :
    ∃ bs, packHeader 1 3 305419896 = some bs ∧
      bs.length = 16 ∧ decodeHeader bs = some (1, 3, 305419896) :=
  c3_header_roundtrip 1 3 305419896 (by norm_num) (by norm_num) (by norm_num)

/-- C5: FILE_RANGE name resolution: a non-`None`, non-empty catalog that
contains the requested name as a key resolves it to the mapped path; in
every other case (no catalog, empty catalog, or name absent) the name is
used unchanged. -/
theorem c5_name_resolution (cache : Option Catalog) (name : List Char) :
    (cache = none → resolveName cache name = name) ∧
    (∀ c, cache = some c → c.length = 0 → resolveName cache name = name) ∧
    (∀ c, cache = some c → odLookup c name = none →
      resolveName cache name = name) ∧
    (∀ c p, cache = some c → 0 < c.length → odLookup c name = some p →
      resolveName cache name = p) := by
  refine ⟨?_, ?_, ?_, ?_⟩
  · rintro rfl; rfl
  · rintro c rfl hc
    simp [resolveName, hc]
  · rintro c rfl hl
    simp only [resolveName]
    split
    · rw [hl]
    · rfl
  · rintro c p rfl hc hl
    simp only [resolveName, if_pos hc, hl]

theorem c5_name_resolution_witness :
    resolveName (some [(['a'], ['p', 'q'])]) ['a'] = ['p', 'q'] ∧
    resolveName (some [(['a'], ['p', 'q'])]) ['b'] = ['b'] ∧
    resolveName none ['a'] = ['a'] ∧
    resolveName (some []) ['a'] = ['a'] :=
  ⟨(c5_name_resolution (some [(['a'], ['p', 'q'])]) ['a']).2.2.2 _ _ rfl
      (by decide) (by decide),
   (c5_name_resolution (some [(['a'], ['p', 'q'])]) ['b']).2.2.1 _ rfl
      (by decide),
   (c5_name_resolution none ['a']).1 rfl,
   (c5_name_resolution (some []) ['a']).2.1 _ rfl rfl⟩

/-- C6: every validly framed header whose command id is not EXIT (0),
FILE_RANGE (2) or LIST (3) — including 99 and LIST_DEPRECATED (1) — makes
the dispatcher log a warning and invoke the very handler an explicit EXIT
invokes: `process_exit_command`, which writes a RESPONSE header with
id=EXIT and size=0 and terminates the process. -/
theorem c6_unknown_id_is_exit (header : List Nat) (t i s : Nat)
    (hdec : decodeHeader header = some (t, i, s))
    (h0 : i ≠ CommandID_EXIT) (h2 : i ≠ CommandID_FILE_RANGE)
    (h3 : i ≠ CommandID_LIST) :
    dispatchStep header = (HandlerCall.exitCall, true) ∧
    (∀ header' t' s', decodeHeader header' = some (t', CommandID_EXIT, s') →
      dispatchStep header' = (HandlerCall.exitCall, false)) ∧
    process_exit_command.1 =
      packHeaderUnchecked CommandType_RESPONSE CommandID_EXIT 0 ∧
    decodeHeader process_exit_command.1 =
      some (CommandType_RESPONSE, CommandID_EXIT, 0) ∧
    process_exit_command.2 = true := by
  refine ⟨?_, ?_, rfl, by decide, rfl⟩
  · simp [dispatchStep, hdec, h0, h2, h3]
  · intro header' t' s' hdec'
    simp [dispatchStep, hdec', CommandID_EXIT]

theorem c6_unknown_id_is_exit_witness :
    dispatchStep (packHeaderUnchecked 0 99 0) = (HandlerCall.exitCall, true) ∧
    dispatchStep (packHeaderUnchecked 0 1 0) = (HandlerCall.exitCall, true) :=
  ⟨(c6_unknown_id_is_exit (packHeaderUnchecked 0 99 0) 0 99 0 (by decide)
      (by decide) (by decide) (by decide)).1,
   (c6_unknown_id_is_exit (packHeaderUnchecked 0 1 0) 0 1 0 (by decide)
      (by decide) (by decide) (by decide)).1⟩

/-- C7: a 16-byte read that does not start with the magic `"DBI0"` decodes
to no header (never a crash), dispatches no handler and writes nothing,
and the loop discards exactly those 16 bytes and continues reading at the
next 16. -/
theorem c7_resync_skip (bs rest : List Nat) (fuel : Nat)
    (hlen : bs.length = 16) (hmagic : bs.take 4 ≠ dbiMagic) :
    decodeHeader bs = none ∧
    dispatchStep bs = (HandlerCall.skip, false) ∧
    awaitHeader (fuel + 1) (bs ++ rest) =
      (awaitHeader fuel rest).map (fun r => (r.1 + 1, r.2)) := by
  have hdec : decodeHeader bs = none := by
    simp [decodeHeader, hmagic]
  refine ⟨hdec, by simp [dispatchStep, hdec], ?_⟩
  have htake : (bs ++ rest).take 16 = bs := by
    rw [← hlen]
    exact List.take_left bs rest
  have hdrop : (bs ++ rest).drop 16 = rest := by
    rw [← hlen]
    exact List.drop_left bs rest
  have hlen' : ¬ (bs ++ rest).length < 16 := by
    simp [List.length_append, hlen]
  simp only [awaitHeader, if_neg hlen', htake, hdrop, hdec]

theorem c7_resync_skip_witness :
    decodeHeader (List.replicate 16 0) = none ∧
    dispatchStep (List.replicate 16 0) = (HandlerCall.skip, false) ∧
    awaitHeader 1 (List.replicate 16 0 ++ []) =
      (awaitHeader 0 []).map (fun r => (r.1 + 1, r.2)) :=
  c7_resync_skip (List.replicate 16 0) [] 0 (by decide) (by decide)

/-- C10: every header the program writes — the FILE_RANGE ACK (line 67),
the FILE_RANGE RESPONSE (line 79), the EXIT RESPONSE (line 110) and the
LIST RESPONSE (line 131) — is exactly 16 bytes and begins with the magic
`"DBI0"`. -/
theorem c10_written_headers (ds rs ln : Nat) (cat : Catalog) :
    (∀ bs, fileRangeAckHeader ds = some bs →
      bs.length = 16 ∧ bs.take 4 = dbiMagic) ∧
    (∀ bs, fileRangeResponseHeader rs = some bs →
      bs.length = 16 ∧ bs.take 4 = dbiMagic) ∧
    (process_exit_command.1.length = 16 ∧
      process_exit_command.1.take 4 = dbiMagic) ∧
    (∀ bs, listResponseHeader ln = some bs →
      bs.length = 16 ∧ bs.take 4 = dbiMagic) ∧
    (∀ h p, listResponseWire cat = some (h, p) →
      h.length = 16 ∧ h.take 4 = dbiMagic) := by
  refine ⟨fun bs h => packHeader_spec _ _ _ _ h,
    fun bs h => packHeader_spec _ _ _ _ h,
    ⟨packHeaderUnchecked_length _ _ _, packHeaderUnchecked_magic _ _ _⟩,
    fun bs h => packHeader_spec _ _ _ _ h, ?_⟩
  intro h p hw
  simp only [listResponseWire, Option.map_eq_some'] at hw
  obtain ⟨hdr, hpack, heq⟩ := hw
  cases heq
  exact packHeader_spec _ _ _ _ hpack

theorem parse_concat (s o nl : Nat) (nm : List Nat)
    (hs : s < 2 ^ 32) (ho : o < 2 ^ 64) (hnl : nl < 2 ^ 32) :
    parseFileRangePayload (le32 s ++ le64 o ++ le32 nl ++ nm) =
      (s, o, nl, nm) := by
  have h1 := unpackLE_le32 s hs
  have h2 := unpackLE_le64 o ho
  have h3 := unpackLE_le32 nl hnl
  simp only [le32, le64] at h1 h2 h3
  simp only [parseFileRangePayload, le32, le64, List.cons_append,
    List.nil_append]
  simp only [List.take_succ_cons, List.take_zero, List.drop_succ_cons,
    List.drop_zero]
  rw [h1, h2, h3]

/-- C8: a FILE_RANGE payload of at least 16 bytes parses as the LE u32
`range_size` at bytes 0..4, the LE u64 `range_offset` at 4..12, the LE u32
`name_len` at 12..16, and the name taken from the entire remainder of the
payload — the declared `name_len` neither bounds nor affects the name.
First part: parsing recovers arbitrary packed fields (for every `name_len`
value, the name is the whole remainder).  Second part: every byte-valued
payload of length ≥ 16 decomposes this way. -/
theorem c8_file_range_parse :
    (∀ s o nl nm, s < 2 ^ 32 → o < 2 ^ 64 → nl < 2 ^ 32 →
      parseFileRangePayload (le32 s ++ le64 o ++ le32 nl ++ nm) =
        (s, o, nl, nm)) ∧
    (∀ p : List Nat, 16 ≤ p.length → (∀ b ∈ p, b < 256) →
      ∃ s o nl nm, s < 2 ^ 32 ∧ o < 2 ^ 64 ∧ nl < 2 ^ 32 ∧
        p = le32 s ++ le64 o ++ le32 nl ++ nm ∧ nm = p.drop 16 ∧
        parseFileRangePayload p = (s, o, nl, nm)) := by
  refine ⟨fun s o nl nm hs ho hnl => parse_concat s o nl nm hs ho hnl, ?_⟩
  intro p hlen hb
  refine ⟨unpackLE (p.take 4), unpackLE ((p.drop 4).take 8),
    unpackLE ((p.drop 12).take 4), p.drop 16, ?_, ?_, ?_, ?_, rfl, rfl⟩
  · have := unpackLE_lt (p.take 4) (fun b hm => hb b (List.mem_of_mem_take hm))
    have h4 : (p.take 4).length = 4 := by
      rw [List.length_take]
      omega
    rw [h4] at this
    exact lt_of_lt_of_le this (by norm_num)
  · have := unpackLE_lt ((p.drop 4).take 8)
      (fun b hm => hb b (List.mem_of_mem_drop (List.mem_of_mem_take hm)))
    have h8 : ((p.drop 4).take 8).length = 8 := by
      rw [List.length_take, List.length_drop]
      omega
    rw [h8] at this
    exact lt_of_lt_of_le this (by norm_num)
  · have := unpackLE_lt ((p.drop 12).take 4)
      (fun b hm => hb b (List.mem_of_mem_drop (List.mem_of_mem_take hm)))
    have h4 : ((p.drop 12).take 4).length = 4 := by
      rw [List.length_take, List.length_drop]
      omega
    rw [h4] at this
    exact lt_of_lt_of_le this (by norm_num)
  · have e1 : le32 (unpackLE (p.take 4)) = p.take 4 :=
      le32_unpackLE _ (by rw [List.length_take]; omega)
        (fun b hm => hb b (List.mem_of_mem_take hm))
    have e2 : le64 (unpackLE ((p.drop 4).take 8)) = (p.drop 4).take 8 :=
      le64_unpackLE _ (by rw [List.length_take, List.length_drop]; omega)
        (fun b hm => hb b (List.mem_of_mem_drop (List.mem_of_mem_take hm)))
    have e3 : le32 (unpackLE ((p.drop 12).take 4)) = (p.drop 12).take 4 :=
      le32_unpackLE _ (by rw [List.length_take, List.length_drop]; omega)
        (fun b hm => hb b (List.mem_of_mem_drop (List.mem_of_mem_take hm)))
    rw [e1, e2, e3, List.append_assoc, List.append_assoc]
    have hd1 : (p.drop 4).drop 8 = p.drop 12 := by
      rw [List.drop_drop]
    have hd2 : (p.drop 12).drop 4 = p.drop 16 := by
      rw [List.drop_drop]
    calc p = p.take 4 ++ p.drop 4 := (List.take_append_drop 4 p).symm
      _ = p.take 4 ++ ((p.drop 4).take 8 ++ (p.drop 4).drop 8) := by
          rw [List.take_append_drop 8 (p.drop 4)]
      _ = p.take 4 ++ ((p.drop 4).take 8 ++ p.drop 12) := by rw [hd1]
      _ = p.take 4 ++ ((p.drop 4).take 8 ++
            ((p.drop 12).take 4 ++ (p.drop 12).drop 4)) := by
          rw [List.take_append_drop 4 (p.drop 12)]
      _ = p.take 4 ++ ((p.drop 4).take 8 ++
            ((p.drop 12).take 4 ++ p.drop 16)) := by rw [hd2]

theorem c10_written_headers_witness :
    (packHeaderUnchecked CommandType_ACK CommandID_FILE_RANGE 32).length = 16 ∧
    (packHeaderUnchecked CommandType_ACK CommandID_FILE_RANGE 32).take 4 =
      dbiMagic :=
  (c10_written_headers 32 0 0 []).1
    (packHeaderUnchecked CommandType_ACK CommandID_FILE_RANGE 32) (by decide)

theorem c8_file_range_parse_witness :
    parseFileRangePayload (le32 10 ++ le64 7 ++ le32 3 ++ [65, 66]) =
      (10, 7, 3, [65, 66]) :=
  c8_file_range_parse.1 10 7 3 [65, 66] (by norm_num) (by norm_num)
    (by norm_num)

/-! ## Streaming-loop lemmas -/

theorem streamLoop_sum (L : Nat) :
    ∀ fuel pos remaining, remaining ≤ fuel →
      ((streamLoop L fuel pos remaining).1.sum = min remaining (L - pos)) := by
  intro fuel
  induction fuel with
  | zero =>
    intro pos r h
    have : r = 0 := by omega
    subst this
    simp [streamLoop]
  | succ n ih =>
    intro pos r h
    by_cases hr : r = 0
    · subst hr
      simp [streamLoop]
    · have hB : BUFFER_SEGMENT_DATA_SIZE = 1048576 := rfl
      simp only [streamLoop, if_neg hr]
      by_cases hb0 : min (min BUFFER_SEGMENT_DATA_SIZE r) (L - pos) = 0
      · simp only [if_pos hb0, List.sum_nil]
        omega
      · simp only [if_neg hb0, List.sum_cons]
        rw [ih (pos + min (min BUFFER_SEGMENT_DATA_SIZE r) (L - pos))
          (r - min BUFFER_SEGMENT_DATA_SIZE r) (by omega)]
        omega

theorem streamLoop_chunk_le (L : Nat) :
    ∀ fuel pos remaining c, c ∈ (streamLoop L fuel pos remaining).1 →
      c ≤ BUFFER_SEGMENT_DATA_SIZE := by
  intro fuel
  induction fuel with
  | zero =>
    intro pos r c hc
    simp [streamLoop] at hc
  | succ n ih =>
    intro pos r c hc
    by_cases hr : r = 0
    · subst hr
      simp [streamLoop] at hc
    · simp only [streamLoop, if_neg hr] at hc
      by_cases hb0 : min (min BUFFER_SEGMENT_DATA_SIZE r) (L - pos) = 0
      · rw [if_pos hb0] at hc
        simp at hc
      · simp only [if_neg hb0, List.mem_cons] at hc
        rcases hc with hc | hc
        · subst hc
          exact le_trans (Nat.min_le_left _ _) (Nat.min_le_left _ _)
        · exact ih _ _ c hc

theorem streamLoop_no_warning (L : Nat) :
    ∀ fuel pos remaining, remaining ≤ fuel → pos + remaining ≤ L →
      (streamLoop L fuel pos remaining).2 = false := by
  intro fuel
  induction fuel with
  | zero =>
    intro pos r h _
    have : r = 0 := by omega
    subst this
    simp [streamLoop]
  | succ n ih =>
    intro pos r h hle
    by_cases hr : r = 0
    · subst hr
      simp [streamLoop]
    · have hB : BUFFER_SEGMENT_DATA_SIZE = 1048576 := rfl
      have hb0 : ¬ min (min BUFFER_SEGMENT_DATA_SIZE r) (L - pos) = 0 := by
        omega
      simp only [streamLoop, if_neg hr, if_neg hb0]
      exact ih _ _ (by omega) (by omega)

theorem streamLoop_warning_truncates (L : Nat) :
    ∀ fuel pos remaining, (streamLoop L fuel pos remaining).2 = true →
      L - pos < remaining := by
  intro fuel
  induction fuel with
  | zero =>
    intro pos r h
    simp [streamLoop] at h
  | succ n ih =>
    intro pos r h
    by_cases hr : r = 0
    · subst hr
      simp [streamLoop] at h
    · have hB : BUFFER_SEGMENT_DATA_SIZE = 1048576 := rfl
      simp only [streamLoop, if_neg hr] at h
      by_cases hb0 : min (min BUFFER_SEGMENT_DATA_SIZE r) (L - pos) = 0
      · omega
      · simp only [if_neg hb0] at h
        have := ih _ _ h
        omega

theorem streamLoop_eof_warning (L : Nat) (fuel pos remaining : Nat)
    (hL : L ≤ pos) (hr : 0 < remaining) (hf : 0 < fuel) :
    (streamLoop L fuel pos remaining).2 = true := by
  match fuel, hf with
  | n + 1, _ =>
    have hB : BUFFER_SEGMENT_DATA_SIZE = 1048576 := rfl
    have hb0 : min (min BUFFER_SEGMENT_DATA_SIZE remaining) (L - pos) = 0 := by
      omega
    simp only [streamLoop, if_neg (by omega : ¬ remaining = 0), if_pos hb0]

/-- C2 counterexample: the claim asserts a warning is logged whenever
`O + S > L`, but for `L = 5`, `O = 2`, `S = 4` the handler writes the 3
available bytes, the requested-size decrement zeroes the remaining
counter, the loop exits normally and no warning is logged. -/
theorem c2_counterexample :
    5 < 2 + 4 ∧ streamFileRange 5 2 4 = ([3], false) := by decide

/-- C2 (amended): for a FILE_RANGE stream of requested size `S` from
offset `O` in a file of length `L`: if `O + S ≤ L`, exactly `S` bytes are
written, in chunks each at most 1 MiB, and no warning is logged; if
`O + S > L`, exactly `min S (L - O)` bytes are written — fewer than `S`
whenever `S > 0` — and no error is raised; the EOF warning is logged only
when some read returns no data (in particular whenever `O ≥ L` and
`S > 0`), not in every truncating case. -/
theorem c2_stream_range (L O S : Nat) :
    (∀ c ∈ (streamFileRange L O S).1, c ≤ BUFFER_SEGMENT_DATA_SIZE) ∧
    (O + S ≤ L →
      (streamFileRange L O S).1.sum = S ∧
      (streamFileRange L O S).2 = false) ∧
    (L < O + S →
      (streamFileRange L O S).1.sum = min S (L - O) ∧
      (0 < S → (streamFileRange L O S).1.sum < S)) ∧
    ((streamFileRange L O S).2 = true → (streamFileRange L O S).1.sum < S) ∧
    (L ≤ O → 0 < S → (streamFileRange L O S).2 = true) := by
  have hsum := streamLoop_sum L S O S le_rfl
  refine ⟨fun c hc => streamLoop_chunk_le L S O S c hc, ?_, ?_, ?_, ?_⟩
  · intro hle
    refine ⟨?_, streamLoop_no_warning L S O S le_rfl hle⟩
    rw [streamFileRange, hsum]
    omega
  · intro hgt
    rw [streamFileRange, hsum]
    omega
  · intro hw
    have := streamLoop_warning_truncates L S O S hw
    rw [streamFileRange, hsum]
    omega
  · intro hL hS
    exact streamLoop_eof_warning L S O S hL hS (by omega)

theorem c2_stream_range_witness :
    (streamFileRange 10 2 6).1.sum = 6 ∧
    (streamFileRange 10 2 6).2 = false ∧
    (streamFileRange 5 7 3).2 = true :=
  ⟨((c2_stream_range 10 2 6).2.1 (by norm_num)).1,
   ((c2_stream_range 10 2 6).2.1 (by norm_num)).2,
   (c2_stream_range 5 7 3).2.2.2.2 (by norm_num) (by norm_num)⟩

/-! ## LIST serialization lemmas -/

theorem joinNames_eq_flatten (names : List (List Char)) :
    joinNames names = (names.map (fun n => n ++ ['\n'])).flatten := by
  suffices h : ∀ acc, names.foldl (fun acc n => acc ++ n ++ ['\n']) acc =
      acc ++ (names.map (fun n => n ++ ['\n'])).flatten by
    simpa [joinNames] using h []
  induction names with
  | nil => intro acc; simp
  | cons n ns ih =>
    intro acc
    simp only [List.foldl_cons, List.map_cons, List.flatten_cons, ih]
    simp [List.append_assoc]

/-- C4: the LIST handler serializes the display names as newline-terminated
UTF-8 text — the payload is the UTF-8 encoding of the names each followed
by `'\n'` — and whenever the RESPONSE header is successfully written, its
size field equals the byte length of the payload written afterwards, which
equals the UTF-8 byte length of the newline-joined name list. -/
theorem c4_list_payload_size (catalog : Catalog) (h p : List Nat)
    (hw : listResponseWire catalog = some (h, p)) :
    decodeHeader h = some (CommandType_RESPONSE, CommandID_LIST, p.length) ∧
    p = utf8Encode (joinNames (catalog.map Prod.fst)) ∧
    p = utf8Encode (((catalog.map Prod.fst).map (fun n => n ++ ['\n'])).flatten) := by
  simp only [listResponseWire, Option.map_eq_some'] at hw
  obtain ⟨hdr, hpack, heq⟩ := hw
  cases heq
  simp only [packHeader] at hpack
  split at hpack
  case isTrue hcond =>
    cases hpack
    refine ⟨?_, rfl, by rw [joinNames_eq_flatten]⟩
    exact decodeHeader_packHeaderUnchecked _ _ _
      hcond.1 hcond.2.1 hcond.2.2
  case isFalse => cases hpack

theorem c4_list_payload_size_witness :
    ∃ h p, listResponseWire [(['a'], ['r', '/', 'a'])] = some (h, p) ∧
      decodeHeader h = some (CommandType_RESPONSE, CommandID_LIST, p.length) ∧
      p = utf8Encode (joinNames [['a']]) :=
  ⟨packHeaderUnchecked CommandType_RESPONSE CommandID_LIST 2, [97, 10],
   by decide,
   (c4_list_payload_size [(['a'], ['r', '/', 'a'])] _ _ (by decide)).1,
   by decide⟩

/-- C9: the `nsz` test on line 121 has no leading dot, so a file named
`gamensz` — whose lowercased name ends in none of `.nsp`, `.nsz`, `.xci` —
passes the extension test and is collected into the catalog, while the
`.nsp` and `.xci` tests do require the dot (`gamensp` and `gamexci` are
rejected). -/
theorem c9_nsz_needs_no_dot :
    matchesExt ['g', 'a', 'm', 'e', 'n', 's', 'z'] = true ∧
    specExtMatches ['g', 'a', 'm', 'e', 'n', 's', 'z'] = false ∧
    (buildCatalog [([], [['g', 'a', 'm', 'e', 'n', 's', 'z']])]).map
      Prod.fst = [['g', 'a', 'm', 'e', 'n', 's', 'z']] ∧
    matchesExt ['g', 'a', 'm', 'e', 'n', 's', 'p'] = false ∧
    matchesExt ['g', 'a', 'm', 'e', 'x', 'c', 'i'] = false := by decide

/-- C1 counterexample: the file `gamensz` does not end in `.nsp`, `.nsz`
or `.xci` (case-insensitively), yet the catalog build collects it, because
the source's `nsz` suffix test lacks the dot. -/
theorem c1_counterexample :
    specExtMatches ['g', 'a', 'm', 'e', 'n', 's', 'z'] = false ∧
    (buildCatalog [(['r'], [['g', 'a', 'm', 'e', 'n', 's', 'z']])]).map
      Prod.fst = [['g', 'a', 'm', 'e', 'n', 's', 'z']] := by decide

/-! ## OrderedDict lemmas -/

theorem odMem_iff (m : Catalog) (k : List Char) :
    m.any (fun p => p.1 = k) = true ↔ k ∈ m.map Prod.fst := by
  simp only [List.any_eq_true, List.mem_map, decide_eq_true_eq]

theorem odInsert_keys (m : Catalog) (k v : List Char) :
    (odInsert m k v).map Prod.fst =
      if k ∈ m.map Prod.fst then m.map Prod.fst
      else m.map Prod.fst ++ [k] := by
  by_cases hm : k ∈ m.map Prod.fst
  · rw [if_pos hm]
    simp only [odInsert, if_pos ((odMem_iff m k).2 hm)]
    rw [List.map_map]
    apply List.map_congr_left
    intro p _
    by_cases hpk : p.1 = k
    · simp [hpk]
    · simp [hpk]
  · rw [if_neg hm]
    simp only [odInsert,
      if_neg (fun h => hm ((odMem_iff m k).1 h))]
    simp

theorem odLookup_map_update (m : Catalog) (k v : List Char)
    (hm : k ∈ m.map Prod.fst) :
    odLookup (m.map (fun p => if p.1 = k then (k, v) else p)) k = some v := by
  induction m with
  | nil => simp at hm
  | cons p m ih =>
    obtain ⟨k1, v1⟩ := p
    simp only [List.map_cons, List.mem_cons] at hm
    by_cases hpk : k1 = k
    · have hhead : (if ((k1, v1) : List Char × List Char).1 = k
          then (k, v) else (k1, v1)) = (k, v) := by
        simp [hpk]
      rw [List.map_cons, hhead]
      simp [odLookup]
    · have hhead : (if ((k1, v1) : List Char × List Char).1 = k
          then (k, v) else (k1, v1)) = (k1, v1) := by
        simp [hpk]
      rw [List.map_cons, hhead]
      simp only [odLookup]
      rw [if_neg (show ¬ k = k1 from fun h => hpk h.symm)]
      apply ih
      rcases hm with h | h
      · exact absurd h.symm hpk
      · exact h

theorem odLookup_append_new (m : Catalog) (k v : List Char)
    (hm : k ∉ m.map Prod.fst) :
    odLookup (m ++ [(k, v)]) k = some v := by
  induction m with
  | nil => simp [odLookup]
  | cons p m ih =>
    obtain ⟨k1, v1⟩ := p
    simp only [List.map_cons, List.mem_cons, not_or] at hm
    simp only [List.cons_append, odLookup]
    rw [if_neg hm.1]
    exact ih hm.2

theorem odInsert_lookup_self (m : Catalog) (k v : List Char) :
    odLookup (odInsert m k v) k = some v := by
  simp only [odInsert]
  by_cases hm : k ∈ m.map Prod.fst
  · rw [if_pos ((odMem_iff m k).2 hm)]
    exact odLookup_map_update m k v hm
  · rw [if_neg (fun h => hm ((odMem_iff m k).1 h))]
    exact odLookup_append_new m k v hm

theorem odLookup_map_other (m : Catalog) (k v k' : List Char) (hk : k' ≠ k) :
    odLookup (m.map (fun p => if p.1 = k then (k, v) else p)) k' =
      odLookup m k' := by
  induction m with
  | nil => rfl
  | cons p m ih =>
    obtain ⟨k1, v1⟩ := p
    by_cases hpk : k1 = k
    · have hhead : (if ((k1, v1) : List Char × List Char).1 = k
          then (k, v) else (k1, v1)) = (k, v) := by
        simp [hpk]
      rw [List.map_cons, hhead]
      simp only [odLookup]
      rw [if_neg hk,
        if_neg (show ¬ k' = k1 from fun h => hk (h.trans hpk))]
      exact ih
    · have hhead : (if ((k1, v1) : List Char × List Char).1 = k
          then (k, v) else (k1, v1)) = (k1, v1) := by
        simp [hpk]
      rw [List.map_cons, hhead]
      simp only [odLookup]
      by_cases hk1 : k' = k1
      · rw [if_pos hk1, if_pos hk1]
      · rw [if_neg hk1, if_neg hk1]
        exact ih

theorem odLookup_append_other (m : Catalog) (k v k' : List Char)
    (hk : k' ≠ k) :
    odLookup (m ++ [(k, v)]) k' = odLookup m k' := by
  induction m with
  | nil => simp [odLookup, hk]
  | cons p m ih =>
    obtain ⟨k1, v1⟩ := p
    simp only [List.cons_append, odLookup]
    by_cases hk1 : k' = k1
    · rw [if_pos hk1, if_pos hk1]
    · rw [if_neg hk1, if_neg hk1]
      exact ih

theorem odInsert_lookup_other (m : Catalog) (k v k' : List Char)
    (hk : k' ≠ k) :
    odLookup (odInsert m k v) k' = odLookup m k' := by
  simp only [odInsert]
  by_cases hm : m.any (fun p => p.1 = k) = true
  · rw [if_pos hm]
    exact odLookup_map_other m k v k' hk
  · rw [if_neg hm]
    exact odLookup_append_other m k v k' hk

theorem odBuildFrom_concat (acc : Catalog)
    (l : List (List Char × List Char)) (e : List Char × List Char) :
    odBuildFrom acc (l ++ [e]) =
      odInsert (odBuildFrom acc l) e.2 (pathJoin e.1 e.2) := by
  simp [odBuildFrom, List.foldl_append]

theorem odBuildFrom_mem (l : List (List Char × List Char)) (k : List Char) :
    k ∈ (odBuildFrom [] l).map Prod.fst ↔ k ∈ l.map Prod.snd := by
  induction l using List.reverseRecOn with
  | nil => simp [odBuildFrom]
  | append_singleton l e ih =>
    rw [odBuildFrom_concat, odInsert_keys]
    simp only [List.map_append, List.map_cons, List.map_nil]
    split
    case isTrue h =>
      simp only [List.mem_append, List.mem_singleton, ih]
      constructor
      · exact Or.inl
      · rintro (h' | rfl)
        · exact h'
        · exact ih.1 h
    case isFalse h =>
      simp only [List.mem_append, List.mem_singleton, ih]

theorem odBuildFrom_lookup (l : List (List Char × List Char))
    (k : List Char) :
    odLookup (odBuildFrom [] l) k =
      ((l.filter (fun e => e.2 = k)).getLast?).map
        (fun e => pathJoin e.1 e.2) := by
  induction l using List.reverseRecOn with
  | nil => simp [odBuildFrom, odLookup]
  | append_singleton l e ih =>
    rw [odBuildFrom_concat]
    by_cases hk : k = e.2
    · subst hk
      rw [odInsert_lookup_self]
      rw [List.filter_append]
      have hfil : List.filter (fun x => decide (x.2 = e.2)) [e] = [e] := by
        simp
      rw [hfil, List.getLast?_concat]
      rfl
    · rw [odInsert_lookup_other _ _ _ _ hk]
      rw [List.filter_append]
      have hfil : List.filter (fun x => decide (x.2 = k)) [e] = [] := by
        simp [Ne.symm hk]
      rw [hfil, List.append_nil]
      exact ih

theorem mem_dedupAux (x : List Char) :
    ∀ (ys : List (List Char)) (seen : List (List Char)),
      x ∈ dedupAux seen ys ↔ x ∈ ys ∧ x ∉ seen := by
  intro ys
  induction ys with
  | nil => intro seen; simp [dedupAux]
  | cons y ys ih =>
    intro seen
    simp only [dedupAux]
    by_cases hy : y ∈ seen
    · rw [if_pos hy, ih seen]
      simp only [List.mem_cons]
      constructor
      · rintro ⟨h1, h2⟩
        exact ⟨Or.inr h1, h2⟩
      · rintro ⟨h1 | h1, h2⟩
        · subst h1
          exact absurd hy h2
        · exact ⟨h1, h2⟩
    · rw [if_neg hy]
      simp only [List.mem_cons, ih (y :: seen)]
      constructor
      · rintro (rfl | ⟨h1, h2⟩)
        · exact ⟨Or.inl rfl, hy⟩
        · simp only [List.mem_cons, not_or] at h2
          exact ⟨Or.inr h1, h2.2⟩
      · rintro ⟨rfl | h1, h2⟩
        · exact Or.inl rfl
        · by_cases hxy : x = y
          · exact Or.inl hxy
          · exact Or.inr ⟨h1, by simp [List.mem_cons, hxy, h2]⟩

theorem dedupAux_concat (xs : List (List Char)) (x : List Char) :
    ∀ seen, dedupAux seen (xs ++ [x]) =
      if x ∈ seen ∨ x ∈ xs then dedupAux seen xs
      else dedupAux seen xs ++ [x] := by
  induction xs with
  | nil =>
    intro seen
    by_cases h : x ∈ seen
    · simp [dedupAux, h]
    · simp [dedupAux, h]
  | cons y ys ih =>
    intro seen
    rw [List.cons_append]
    simp only [dedupAux]
    by_cases hy : y ∈ seen
    · rw [if_pos hy, if_pos hy, ih seen]
      have hcond : (x ∈ seen ∨ x ∈ ys) ↔ (x ∈ seen ∨ x ∈ y :: ys) := by
        simp only [List.mem_cons]
        constructor
        · rintro (h | h)
          · exact Or.inl h
          · exact Or.inr (Or.inr h)
        · rintro (h | rfl | h)
          · exact Or.inl h
          · exact Or.inl hy
          · exact Or.inr h
      rw [if_congr hcond rfl rfl]
    · rw [if_neg hy, if_neg hy, ih (y :: seen)]
      have hcond : (x ∈ y :: seen ∨ x ∈ ys) ↔ (x ∈ seen ∨ x ∈ y :: ys) := by
        simp only [List.mem_cons]
        tauto
      rw [if_congr hcond rfl rfl]
      by_cases hc : x ∈ seen ∨ x ∈ y :: ys
      · rw [if_pos hc, if_pos hc]
      · rw [if_neg hc, if_neg hc, List.cons_append]

theorem odBuildFrom_keys (l : List (List Char × List Char)) :
    (odBuildFrom [] l).map Prod.fst = dedupKeys (l.map Prod.snd) := by
  induction l using List.reverseRecOn with
  | nil => simp [odBuildFrom, dedupKeys, dedupAux]
  | append_singleton l e ih =>
    rw [odBuildFrom_concat, odInsert_keys, ih]
    simp only [List.map_append, List.map_cons, List.map_nil]
    have hrhs : dedupKeys (List.map Prod.snd l ++ [e.2]) =
        if e.2 ∈ ([] : List (List Char)) ∨ e.2 ∈ List.map Prod.snd l
        then dedupKeys (List.map Prod.snd l)
        else dedupKeys (List.map Prod.snd l) ++ [e.2] :=
      dedupAux_concat (List.map Prod.snd l) e.2 []
    rw [hrhs]
    have hcond : e.2 ∈ dedupKeys (List.map Prod.snd l) ↔
        (e.2 ∈ ([] : List (List Char)) ∨ e.2 ∈ List.map Prod.snd l) := by
      rw [dedupKeys, mem_dedupAux]
      simp
    rw [if_congr hcond rfl rfl]

/-! ## Bridge: `buildCatalog` as a flat fold over filtered walk entries -/

theorem innerFold_eq (d : List Char) (fs : List (List Char)) :
    ∀ acc : Catalog,
      fs.foldl (fun acc f =>
        if matchesExt f then odInsert acc f (pathJoin d f) else acc) acc =
      odBuildFrom acc
        ((fs.map (fun f => (d, f))).filter (fun e => matchesExt e.2)) := by
  induction fs with
  | nil => intro acc; rfl
  | cons f fs ih =>
    intro acc
    simp only [List.foldl_cons, List.map_cons, List.filter_cons]
    by_cases hf : matchesExt f = true
    · rw [if_pos hf]
      rw [if_pos (by simpa using hf)]
      exact ih _
    · rw [if_neg hf]
      rw [if_neg (by simpa using hf)]
      exact ih acc

theorem buildCatalogAux_eq (walk : Walk) :
    ∀ acc : Catalog,
      walk.foldl
        (fun acc e =>
          e.2.foldl
            (fun acc f =>
              if matchesExt f then odInsert acc f (pathJoin e.1 f) else acc)
            acc)
        acc = odBuildFrom acc (walkEntries walk) := by
  induction walk with
  | nil => intro acc; rfl
  | cons w ws ih =>
    intro acc
    simp only [List.foldl_cons]
    rw [innerFold_eq w.1 w.2 acc, ih]
    have hw : walkEntries (w :: ws) =
        ((w.2.map (fun f => (w.1, f))).filter (fun e => matchesExt e.2)) ++
          walkEntries ws := by
      simp [walkEntries, flattenWalk, List.filter_append]
    rw [hw]
    simp [odBuildFrom, List.foldl_append]

theorem buildCatalog_eq (walk : Walk) :
    buildCatalog walk = odBuildFrom [] (walkEntries walk) :=
  buildCatalogAux_eq walk []

/-- C1 (amended): the catalog contains exactly the files whose lowercased
name passes the source's extension test — ends in `.nsp`, in `nsz` (no dot
required), or in `.xci` — keyed by base name.  Keys appear in walk
discovery order of their first occurrence, and a duplicate display name
maps to the last-discovered path. -/
theorem c1_catalog_build (walk : Walk) (k : List Char) :
    ((buildCatalog walk).map Prod.fst =
      dedupKeys ((walkEntries walk).map Prod.snd)) ∧
    (k ∈ (buildCatalog walk).map Prod.fst ↔
      ((∃ d, (d, k) ∈ flattenWalk walk) ∧ matchesExt k = true)) ∧
    (odLookup (buildCatalog walk) k =
      (((walkEntries walk).filter (fun e => e.2 = k)).getLast?).map
        (fun e => pathJoin e.1 e.2)) := by
  rw [buildCatalog_eq]
  refine ⟨odBuildFrom_keys _, ?_, odBuildFrom_lookup _ _⟩
  rw [odBuildFrom_mem]
  simp only [walkEntries, List.mem_map, List.mem_filter]
  constructor
  · rintro ⟨⟨d, f⟩, ⟨hmem, hext⟩, rfl⟩
    exact ⟨⟨d, hmem⟩, by simpa using hext⟩
  · rintro ⟨⟨d, hmem⟩, hext⟩
    exact ⟨(d, k), ⟨hmem, by simpa using hext⟩, rfl⟩

end Dbi
